import Mathlib

/-!
Verification of the EURO500 dashboard panel-analytics core.

This file gives a shallow embedding of the analytics logic of
`euro500_dashboard_app.py` (quarter-calendar normalisation, entity-key
resolution, distribution counts, top-5 category selection, turnover and
tenure tracking, concentration metrics, per-company time series, and
entity search) and proves, or refutes, the frozen specification claims
about it.

Modelling conventions:
* pandas numeric values are modelled by `ℚ`; missing values by `Option`.
* pandas `sort_values(ascending=False)` (`pandas.core.sorting.nargsort`)
  reverses the values and their indices, argsorts them ascending with a
  stable kind, and reverses the indexer again, so equal-key elements
  keep their original relative order; it is modelled by a stable
  ascending sort applied to the reversed list, reversed again
  (`sortDesc`).
* pandas `groupby` with default `sort=True` enumerates group keys in
  ascending order; it is modelled by sorting the deduplicated keys.
* Python `str.strip` / `str.upper` are modelled on the character list of
  a `String`, since the byte-position based `String` functions of core
  Lean do not reduce in the kernel.
-/

namespace Euro500

/-! ### Quarter calendar normaliser (source: `load_euro500_data`) -/

/-- Fiscal quarter number of a calendar month.  Source lines 57-61:
months 12, 3, 6, 9 map to quarters 1, 2, 3, 4; any other month falls
back to the ordinary calendar quarter. -/
def q_num (month : Nat) : Nat :=
  if month = 12 then 1
  else if month = 3 then 2
  else if month = 6 then 3
  else if month = 9 then 4
  else (month - 1) / 3 + 1

/-- Fiscal year of a date.  Source line 62: the calendar year, plus one
exactly when the calendar month is December. -/
def q_year (year month : Nat) : Nat :=
  year + (if month = 12 then 1 else 0)

/-- Label string for a (fiscal year, fiscal quarter) pair, as built on
source line 63: decimal year, then `Q`, then decimal quarter number. -/
def mkLabel (fy fq : Nat) : String :=
  Nat.repr fy ++ "Q" ++ Nat.repr fq

/-- Quarter label of a date (source line 63). -/
def q_label (year month : Nat) : String :=
  mkLabel (q_year year month) (q_num month)

/-! ### Entity identity resolver (source: `_with_company_key`) -/

/-- Whitespace trimming on the character list, modelling Python
`str.strip`. -/
def trimStr (s : String) : String :=
  ⟨((s.data.dropWhile Char.isWhitespace).reverse.dropWhile Char.isWhitespace).reverse⟩

/-- Cleaning of one cell (`_series_clean_str`): missing becomes the empty
string, then whitespace is stripped. -/
def cleanField (s : Option String) : String :=
  trimStr (s.getD "")

/-- Identifier columns of one row, before cleaning.  `none` models a
missing value (NaN). -/
structure KRow where
  firm_id : Option String
  isin : Option String
  name : Option String
  hq_code : Option String

/-- Models `_with_company_key` (source lines 1077-1098) on one row: prefer
`firm_id`, then `isin`; otherwise the name fallback, which is the name
alone when `hq_code` is blank and otherwise the name, a ` | ` separator,
and the `hq_code`. -/
def with_company_key (r : KRow) : String :=
  let fid := cleanField r.firm_id
  let isin := cleanField r.isin
  let name := cleanField r.name
  let hq := cleanField r.hq_code
  let name_fallback := if hq = "" then name else name ++ " | " ++ hq
  if fid ≠ "" then fid
  else if isin ≠ "" then isin
  else name_fallback

end Euro500

namespace Euro500

/-! ### Decimal rendering facts used by the label invariants

`q_label` builds its string with Lean's decimal printer `Nat.repr`,
which models Python's `str` on non-negative integers.  The lemmas here
identify `Nat.repr` with `Nat.digits` and derive its injectivity, which
backs the duplicate-freeness of the label sequence (claim C9). -/

theorem toDigitsCore_eq_digits (f : Nat) :
    ∀ n acc, 0 < n → n ≤ f →
      Nat.toDigitsCore 10 f n acc =
        ((Nat.digits 10 n).map Nat.digitChar).reverse ++ acc := by
  induction f with
  | zero => intro n acc h0 hf; omega
  | succ f ih =>
    intro n acc h0 hf
    rw [Nat.digits_def' (by norm_num : (1:ℕ) < 10) h0]
    by_cases hq : n / 10 = 0
    · simp [Nat.toDigitsCore, hq]
    · have h0q : 0 < n / 10 := Nat.pos_of_ne_zero hq
      have hfq : n / 10 ≤ f := by
        have := Nat.div_lt_self h0 (by norm_num : (1:ℕ) < 10)
        omega
      simp only [Nat.toDigitsCore, hq, if_false]
      rw [ih (n / 10) (Nat.digitChar (n % 10) :: acc) h0q hfq]
      rw [Nat.digits_def' (by norm_num : (1:ℕ) < 10) h0q]
      simp

theorem repr_data_eq_digits (n : Nat) (h0 : 0 < n) :
    (Nat.repr n).data = ((Nat.digits 10 n).map Nat.digitChar).reverse := by
  have h := toDigitsCore_eq_digits (n + 1) n [] h0 (Nat.le_succ n)
  simp only [Nat.repr, Nat.toDigits, List.asString, h, List.append_nil]

theorem digitChar_inj_lt_ten :
    ∀ x < 10, ∀ y < 10, Nat.digitChar x = Nat.digitChar y → x = y := by decide

theorem map_digitChar_inj :
    ∀ l₁ l₂ : List Nat, (∀ d ∈ l₁, d < 10) → (∀ d ∈ l₂, d < 10) →
      l₁.map Nat.digitChar = l₂.map Nat.digitChar → l₁ = l₂ := by
  intro l₁
  induction l₁ with
  | nil => intro l₂ _ _ h; cases l₂ <;> simp_all
  | cons a l ih =>
    intro l₂ h₁ h₂ h
    cases l₂ with
    | nil => simp_all
    | cons b l' =>
      simp only [List.map_cons, List.cons.injEq] at h
      have ha : a < 10 := h₁ a (by simp)
      have hb : b < 10 := h₂ b (by simp)
      have hab : a = b := digitChar_inj_lt_ten a ha b hb h.1
      have : l = l' := ih l' (fun d hd => h₁ d (by simp [hd]))
        (fun d hd => h₂ d (by simp [hd])) h.2
      simp [hab, this]

theorem repr_data_ne_zero_char (n : Nat) (h0 : 0 < n) :
    (Nat.repr n).data ≠ ['0'] := by
  intro h
  rw [repr_data_eq_digits n h0] at h
  have h' : (Nat.digits 10 n).map Nat.digitChar = ['0'] := by
    have := congrArg List.reverse h
    simpa using this
  have : Nat.digits 10 n = [0] := by
    have hlen : (Nat.digits 10 n).length = 1 := by
      have := congrArg List.length h'
      simpa using this
    obtain ⟨d, hd⟩ := List.length_eq_one.mp hlen
    rw [hd] at h'
    simp only [List.map_cons, List.map_nil, List.cons.injEq, and_true] at h'
    have hdlt : d < 10 := Nat.digits_lt_base (by norm_num) (hd ▸ List.mem_singleton_self d)
    have : d = 0 := digitChar_inj_lt_ten d hdlt 0 (by norm_num) (by simpa using h')
    simp [hd, this]
  have := Nat.ofDigits_digits 10 n
  rw [this.symm, ‹Nat.digits 10 n = [0]›] at h0
  simp [Nat.ofDigits] at h0

theorem natRepr_injective : Function.Injective Nat.repr := by
  intro a b h
  have hd : (Nat.repr a).data = (Nat.repr b).data := congrArg String.data h
  rcases Nat.eq_zero_or_pos a with ha | ha <;> rcases Nat.eq_zero_or_pos b with hb | hb
  · omega
  · exfalso; subst ha
    exact repr_data_ne_zero_char b hb hd.symm
  · exfalso; subst hb
    exact repr_data_ne_zero_char a ha hd
  · rw [repr_data_eq_digits a ha, repr_data_eq_digits b hb] at hd
    have hmap : (Nat.digits 10 a).map Nat.digitChar = (Nat.digits 10 b).map Nat.digitChar := by
      have := congrArg List.reverse hd
      simpa using this
    have : Nat.digits 10 a = Nat.digits 10 b :=
      map_digitChar_inj _ _ (fun d hd => Nat.digits_lt_base (by norm_num) hd)
        (fun d hd => Nat.digits_lt_base (by norm_num) hd) hmap
    exact Nat.digits.injective 10 this

theorem repr_data_single_digit : ∀ n < 10, (Nat.repr n).data = [Nat.digitChar n] := by decide

/-- The label string determines the (fiscal year, fiscal quarter) pair,
for quarter numbers below ten. -/
theorem mkLabel_inj (y₁ q₁ y₂ q₂ : Nat) (h₁ : q₁ < 10) (h₂ : q₂ < 10)
    (h : mkLabel y₁ q₁ = mkLabel y₂ q₂) : y₁ = y₂ ∧ q₁ = q₂ := by
  have hQ : ("Q" : String).data = ['Q'] := rfl
  have hd : ((Nat.repr y₁).data ++ ['Q']) ++ [Nat.digitChar q₁] =
      ((Nat.repr y₂).data ++ ['Q']) ++ [Nat.digitChar q₂] := by
    have hx := congrArg String.data h
    simpa [mkLabel, String.data_append, hQ, repr_data_single_digit q₁ h₁,
      repr_data_single_digit q₂ h₂] using hx
  have hrev := congrArg List.reverse hd
  simp only [List.reverse_append, List.reverse_cons, List.reverse_nil, List.nil_append,
    List.singleton_append, List.cons_append, List.cons.injEq, true_and] at hrev
  refine ⟨?_, digitChar_inj_lt_ten q₁ h₁ q₂ h₂ hrev.1⟩
  apply natRepr_injective
  apply String.ext
  exact List.reverse_injective hrev.2

/-! ### Sorting infrastructure

pandas `sort_values` computes a stable ascending argsort of the key;
for `ascending=False`, `pandas.core.sorting.nargsort` reverses the
values and their indices, argsorts ascending, and reverses the indexer
again, so ties keep their original relative order.  We model the stable
ascending sort by an insertion sort `sSort` (any two stable sorts
agree) and the descending sort by `sortDesc`, the doubly reversed
stable ascending sort. -/

/-- Boolean ascending comparator on a sort key. -/
def keyLe {α β : Type} [LinearOrder β] (f : α → β) (a b : α) : Bool :=
  decide (f a ≤ f b)

theorem keyLe_trans {α β : Type} [LinearOrder β] (f : α → β) :
    ∀ a b c, keyLe f a b = true → keyLe f b c = true → keyLe f a c = true := by
  intro a b c hab hbc
  simp only [keyLe, decide_eq_true_eq] at *
  exact le_trans hab hbc

theorem keyLe_total {α β : Type} [LinearOrder β] (f : α → β) :
    ∀ a b, (keyLe f a b || keyLe f b a) = true := by
  intro a b
  simp only [keyLe, Bool.or_eq_true, decide_eq_true_eq]
  exact le_total _ _

/-- Two-column lexicographic comparator (pandas multi-key sort). -/
def lex2Le {β γ : Type} [LinearOrder β] [LinearOrder γ] (a b : β × γ) : Bool :=
  decide (a.1 < b.1) || (decide (a.1 = b.1) && decide (a.2 ≤ b.2))

theorem lex2Le_trans {β γ : Type} [LinearOrder β] [LinearOrder γ] :
    ∀ a b c : β × γ, lex2Le a b = true → lex2Le b c = true → lex2Le a c = true := by
  intro a b c hab hbc
  simp only [lex2Le, Bool.or_eq_true, Bool.and_eq_true, decide_eq_true_eq] at *
  rcases hab with h | ⟨h1, h2⟩ <;> rcases hbc with h' | ⟨h1', h2'⟩
  · exact Or.inl (lt_trans h h')
  · exact Or.inl (h1' ▸ h)
  · exact Or.inl (h1 ▸ h')
  · exact Or.inr ⟨h1.trans h1', le_trans h2 h2'⟩

theorem lex2Le_total {β γ : Type} [LinearOrder β] [LinearOrder γ] :
    ∀ a b : β × γ, (lex2Le a b || lex2Le b a) = true := by
  intro a b
  simp only [lex2Le, Bool.or_eq_true, Bool.and_eq_true, decide_eq_true_eq]
  rcases lt_trichotomy a.1 b.1 with h | h | h
  · exact Or.inl (Or.inl h)
  · rcases le_total a.2 b.2 with h2 | h2
    · exact Or.inl (Or.inr ⟨h, h2⟩)
    · exact Or.inr (Or.inr ⟨h.symm, h2⟩)
  · exact Or.inr (Or.inl h)

/-- Three-column lexicographic comparator. -/
def lex3Le {β γ δ : Type} [LinearOrder β] [LinearOrder γ] [LinearOrder δ]
    (a b : β × γ × δ) : Bool :=
  decide (a.1 < b.1) || (decide (a.1 = b.1) && lex2Le a.2 b.2)

theorem lex3Le_trans {β γ δ : Type} [LinearOrder β] [LinearOrder γ] [LinearOrder δ] :
    ∀ a b c : β × γ × δ, lex3Le a b = true → lex3Le b c = true → lex3Le a c = true := by
  intro a b c hab hbc
  simp only [lex3Le, Bool.or_eq_true, Bool.and_eq_true, decide_eq_true_eq] at *
  rcases hab with h | ⟨h1, h2⟩ <;> rcases hbc with h' | ⟨h1', h2'⟩
  · exact Or.inl (lt_trans h h')
  · exact Or.inl (h1' ▸ h)
  · exact Or.inl (h1 ▸ h')
  · exact Or.inr ⟨h1.trans h1', lex2Le_trans _ _ _ h2 h2'⟩

theorem lex3Le_total {β γ δ : Type} [LinearOrder β] [LinearOrder γ] [LinearOrder δ] :
    ∀ a b : β × γ × δ, (lex3Le a b || lex3Le b a) = true := by
  intro a b
  simp only [lex3Le, Bool.or_eq_true, Bool.and_eq_true, decide_eq_true_eq]
  rcases lt_trichotomy a.1 b.1 with h | h | h
  · exact Or.inl (Or.inl h)
  · rcases Bool.or_eq_true .. |>.mp (lex2Le_total a.2 b.2) with h2 | h2
    · exact Or.inl (Or.inr ⟨h, h2⟩)
    · exact Or.inr (Or.inr ⟨h.symm, h2⟩)
  · exact Or.inr (Or.inl h)

/-- pandas `drop_duplicates` (keep the first occurrence); `seen` is the
accumulator of already emitted elements. -/
def dropDupsAux {α : Type} [DecidableEq α] : List α → List α → List α
  | [], _ => []
  | a :: l, seen =>
    if a ∈ seen then dropDupsAux l seen else a :: dropDupsAux l (a :: seen)

def dropDups {α : Type} [DecidableEq α] (l : List α) : List α :=
  dropDupsAux l []

theorem mem_dropDupsAux {α : Type} [DecidableEq α] :
    ∀ (l seen : List α) (x : α), x ∈ dropDupsAux l seen ↔ x ∈ l ∧ x ∉ seen := by
  intro l
  induction l with
  | nil => intro seen x; simp [dropDupsAux]
  | cons a l ih =>
    intro seen x
    by_cases ha : a ∈ seen
    · simp only [dropDupsAux, if_pos ha, ih, List.mem_cons]
      constructor
      · rintro ⟨h1, h2⟩; exact ⟨Or.inr h1, h2⟩
      · rintro ⟨h1 | h1, h2⟩
        · exact absurd (h1 ▸ ha) h2
        · exact ⟨h1, h2⟩
    · simp only [dropDupsAux, if_neg ha, List.mem_cons, ih]
      constructor
      · rintro (rfl | ⟨h1, h2⟩)
        · exact ⟨Or.inl rfl, ha⟩
        · exact ⟨Or.inr h1, fun hx => h2 (Or.inr hx)⟩
      · rintro ⟨rfl | h1, h2⟩
        · exact Or.inl rfl
        · by_cases hxa : x = a
          · exact Or.inl hxa
          · refine Or.inr ⟨h1, fun hx => ?_⟩
            rcases hx with h | h
            · exact hxa h
            · exact h2 h

theorem nodup_dropDupsAux {α : Type} [DecidableEq α] :
    ∀ l seen : List α, (dropDupsAux l seen).Nodup := by
  intro l
  induction l with
  | nil => intro seen; simp [dropDupsAux]
  | cons a l ih =>
    intro seen
    by_cases ha : a ∈ seen
    · simpa [dropDupsAux, if_pos ha] using ih seen
    · simp only [dropDupsAux, if_neg ha, List.nodup_cons]
      refine ⟨?_, ih _⟩
      intro hmem
      exact ((mem_dropDupsAux l (a :: seen) a).mp hmem).2 (List.mem_cons_self a seen)

theorem mem_dropDups {α : Type} [DecidableEq α] {l : List α} {x : α} :
    x ∈ dropDups l ↔ x ∈ l := by
  simp [dropDups, mem_dropDupsAux]

theorem nodup_dropDups {α : Type} [DecidableEq α] (l : List α) : (dropDups l).Nodup :=
  nodup_dropDupsAux l []

/-- Stable insertion of `a` into `l`: `a` is placed before the first
element `b` with `le a b`.  Equal-key elements already in `l` therefore
stay in front only if they came earlier, which is exactly the stability
guarantee of the pandas sort being modelled. -/
def sInsert {α : Type} (le : α → α → Bool) (a : α) : List α → List α
  | [] => [a]
  | b :: l => if le a b then a :: b :: l else b :: sInsert le a l

/-- Stable ascending sort (the model of pandas' stable argsort: any two
stable sorts agree, so insertion sort is as good a model as merge
sort). -/
def sSort {α : Type} (le : α → α → Bool) : List α → List α
  | [] => []
  | a :: l => sInsert le a (sSort le l)

theorem sInsert_perm {α : Type} (le : α → α → Bool) (a : α) :
    ∀ l : List α, (sInsert le a l).Perm (a :: l) := by
  intro l
  induction l with
  | nil => simp [sInsert]
  | cons b l ih =>
    by_cases h : le a b
    · simp [sInsert, h]
    · simp only [sInsert, if_neg h]
      exact (List.Perm.cons b ih).trans (List.Perm.swap a b l)

theorem sSort_perm {α : Type} (le : α → α → Bool) :
    ∀ l : List α, (sSort le l).Perm l := by
  intro l
  induction l with
  | nil => simp [sSort]
  | cons a l ih =>
    exact (sInsert_perm le a (sSort le l)).trans (List.Perm.cons a ih)

theorem mem_sSort {α : Type} (le : α → α → Bool) {l : List α} {x : α} :
    x ∈ sSort le l ↔ x ∈ l :=
  (sSort_perm le l).mem_iff

theorem sInsert_pairwise {α : Type} {le : α → α → Bool}
    (htrans : ∀ a b c, le a b = true → le b c = true → le a c = true)
    (htotal : ∀ a b, (le a b || le b a) = true) (a : α) :
    ∀ l : List α, l.Pairwise (fun x y => le x y = true) →
      (sInsert le a l).Pairwise (fun x y => le x y = true) := by
  intro l
  induction l with
  | nil => intro _; simp [sInsert]
  | cons b l ih =>
    intro hl
    rw [List.pairwise_cons] at hl
    obtain ⟨hb, hl'⟩ := hl
    by_cases h : le a b
    · simp only [sInsert, if_pos h, List.pairwise_cons, List.mem_cons]
      refine ⟨?_, hb, hl'⟩
      rintro b' (rfl | hb')
      · exact h
      · exact htrans a b b' h (hb b' hb')
    · have hba : le b a = true := by
        have := htotal a b
        simp only [Bool.or_eq_true] at this
        rcases this with h' | h'
        · exact absurd h' h
        · exact h'
      simp only [sInsert, if_neg h, List.pairwise_cons]
      refine ⟨?_, ih hl'⟩
      intro b' hb'
      rcases List.mem_cons.mp ((sInsert_perm le a l).mem_iff.mp hb') with rfl | hbl
      · exact hba
      · exact hb b' hbl

theorem sSort_pairwise {α : Type} {le : α → α → Bool}
    (htrans : ∀ a b c, le a b = true → le b c = true → le a c = true)
    (htotal : ∀ a b, (le a b || le b a) = true) :
    ∀ l : List α, (sSort le l).Pairwise (fun x y => le x y = true) := by
  intro l
  induction l with
  | nil => simp [sSort]
  | cons a l ih => exact sInsert_pairwise htrans htotal a (sSort le l) ih

/-- Stability of the modelled pandas sort: sorting by key `f` a list
whose elements are strictly increasing in a second key `g` produces a
list that is lexicographically sorted in `(f, g)`. -/
theorem sInsert_pairwise_lex {α β γ : Type} [LinearOrder β] [LinearOrder γ]
    (f : α → β) (g : α → γ) (a : α) :
    ∀ l : List α,
      l.Pairwise (fun x y => f x < f y ∨ (f x = f y ∧ g x < g y)) →
      (∀ x ∈ l, g a < g x) →
      (sInsert (keyLe f) a l).Pairwise
        (fun x y => f x < f y ∨ (f x = f y ∧ g x < g y)) := by
  intro l
  induction l with
  | nil => intro _ _; simp [sInsert]
  | cons b l ih =>
    intro hl ha
    rw [List.pairwise_cons] at hl
    obtain ⟨hb, hl'⟩ := hl
    by_cases h : keyLe f a b
    · have hfab : f a ≤ f b := by simpa [keyLe, decide_eq_true_eq] using h
      simp only [sInsert, if_pos h, List.pairwise_cons, List.mem_cons]
      refine ⟨?_, hb, hl'⟩
      rintro x (rfl | hx)
      · rcases lt_or_eq_of_le hfab with h' | h'
        · exact Or.inl h'
        · exact Or.inr ⟨h', ha x (List.mem_cons_self x l)⟩
      · have hfbx : f b ≤ f x := by
          rcases hb x hx with h' | ⟨h', _⟩
          · exact le_of_lt h'
          · exact le_of_eq h'
        rcases lt_or_eq_of_le (le_trans hfab hfbx) with h' | h'
        · exact Or.inl h'
        · exact Or.inr ⟨h', ha x (List.mem_cons_of_mem b hx)⟩
    · have hba : f b < f a := by
        have hnb : ¬ f a ≤ f b := by simpa [keyLe, decide_eq_true_eq] using h
        exact not_le.mp hnb
      simp only [sInsert, if_neg h, List.pairwise_cons]
      refine ⟨?_, ih hl' (fun x hx => ha x (List.mem_cons_of_mem b hx))⟩
      intro x hx
      rcases List.mem_cons.mp ((sInsert_perm (keyLe f) a l).mem_iff.mp hx) with rfl | hxl
      · exact Or.inl hba
      · exact hb x hxl

theorem sSort_pairwise_lex {α β γ : Type} [LinearOrder β] [LinearOrder γ]
    (f : α → β) (g : α → γ) :
    ∀ l : List α, l.Pairwise (fun x y => g x < g y) →
      (sSort (keyLe f) l).Pairwise
        (fun x y => f x < f y ∨ (f x = f y ∧ g x < g y)) := by
  intro l
  induction l with
  | nil => intro _; simp [sSort]
  | cons a l ih =>
    intro hl
    rw [List.pairwise_cons] at hl
    obtain ⟨ha, hl'⟩ := hl
    exact sInsert_pairwise_lex f g a (sSort (keyLe f) l) (ih hl')
      (fun x hx => ha x ((sSort_perm (keyLe f) l).mem_iff.mp hx))

/-- pandas `sort_values(ascending=False)` via `nargsort`: the values
and their indices are reversed, argsorted ascending with a stable kind,
and the indexer is reversed again.  Equal-key elements therefore keep
their ORIGINAL relative order. -/
def sortDesc {α β : Type} [LinearOrder β] (f : α → β) (l : List α) : List α :=
  (sSort (keyLe f) l.reverse).reverse

theorem sortDesc_perm {α β : Type} [LinearOrder β] (f : α → β) (l : List α) :
    (sortDesc f l).Perm l :=
  ((List.reverse_perm _).trans (sSort_perm _ _)).trans (List.reverse_perm l)

theorem sortDesc_pairwise {α β : Type} [LinearOrder β] (f : α → β) (l : List α) :
    (sortDesc f l).Pairwise (fun a b => f b ≤ f a) := by
  rw [sortDesc, List.pairwise_reverse]
  refine (sSort_pairwise (keyLe_trans f) (keyLe_total f) l.reverse).imp ?_
  intro a b hab
  simpa [keyLe, decide_eq_true_eq] using hab

/-- Stability of the modelled descending pandas sort: sorting a list
whose elements are strictly increasing in a second key `g` descending
by `f` produces a list sorted descending in `f` whose ties are still
ASCENDING in `g` (the double reversal of `nargsort` restores the
original tie order). -/
theorem sortDesc_pairwise_lex {α β γ : Type} [LinearOrder β] [LinearOrder γ]
    (f : α → β) (g : α → γ) (l : List α)
    (hl : l.Pairwise (fun x y => g x < g y)) :
    (sortDesc f l).Pairwise
      (fun x y => f y < f x ∨ (f y = f x ∧ g x < g y)) := by
  have hrev : l.reverse.Pairwise (fun x y => g y < g x) :=
    List.pairwise_reverse.mpr hl
  have hrev' : l.reverse.Pairwise
      (fun x y => OrderDual.toDual (g x) < OrderDual.toDual (g y)) :=
    hrev.imp (fun hab => OrderDual.toDual_lt_toDual.mpr hab)
  have hlex := sSort_pairwise_lex f (fun a => OrderDual.toDual (g a)) l.reverse hrev'
  rw [sortDesc, List.pairwise_reverse]
  refine hlex.imp ?_
  intro a b hab
  rcases hab with h | ⟨h1, h2⟩
  · exact Or.inl h
  · exact Or.inr ⟨h1, OrderDual.toDual_lt_toDual.mp h2⟩

/-! ### C1: quarter labelling -/

/-- C1: for every parseable date the derived quarter label is a pure
function of the date: month 12 maps to fiscal quarter 1 of the following
calendar year; months 3, 6, 9 map to fiscal quarters 2, 3, 4 of the same
calendar year; any other month maps to the ordinary calendar quarter
with the same calendar year; and the label is the fiscal year, `Q`, and
the quarter number. -/
theorem quarter_label_rule (y m : Nat) (hm1 : 1 ≤ m) (hm2 : m ≤ 12) :
    q_label y m = Nat.repr (q_year y m) ++ "Q" ++ Nat.repr (q_num m) ∧
    (m = 12 → q_num m = 1 ∧ q_year y m = y + 1) ∧
    (m = 3 → q_num m = 2 ∧ q_year y m = y) ∧
    (m = 6 → q_num m = 3 ∧ q_year y m = y) ∧
    (m = 9 → q_num m = 4 ∧ q_year y m = y) ∧
    (m ≠ 12 → m ≠ 3 → m ≠ 6 → m ≠ 9 →
      q_num m = (m - 1) / 3 + 1 ∧ q_year y m = y) := by
  refine ⟨rfl, ?_, ?_, ?_, ?_, ?_⟩
  · rintro rfl; exact ⟨rfl, rfl⟩
  · rintro rfl; exact ⟨rfl, rfl⟩
  · rintro rfl; exact ⟨rfl, rfl⟩
  · rintro rfl; exact ⟨rfl, rfl⟩
  · intro h12 h3 h6 h9
    constructor
    · simp only [q_num, if_neg h12, if_neg h3, if_neg h6, if_neg h9]
    · simp only [q_year, if_neg h12, Nat.add_zero]

/-- Witness for `quarter_label_rule` at the December example from the
source comment: 1998-12-31 is labelled 1999Q1. -/
theorem quarter_label_rule_witness :
    q_label 1998 12 = Nat.repr (q_year 1998 12) ++ "Q" ++ Nat.repr (q_num 12) ∧
    (12 = 12 → q_num 12 = 1 ∧ q_year 1998 12 = 1998 + 1) ∧
    (12 = 3 → q_num 12 = 2 ∧ q_year 1998 12 = 1998) ∧
    (12 = 6 → q_num 12 = 3 ∧ q_year 1998 12 = 1998) ∧
    (12 = 9 → q_num 12 = 4 ∧ q_year 1998 12 = 1998) ∧
    (12 ≠ 12 → 12 ≠ 3 → 12 ≠ 6 → 12 ≠ 9 →
      q_num 12 = (12 - 1) / 3 + 1 ∧ q_year 1998 12 = 1998) :=
  quarter_label_rule 1998 12 (by decide) (by decide)

/-! ### C2: entity-key resolution -/

/-- C2 counterexample: a row whose `firm_id`, `isin` and `name` are all
empty but whose `hq_code` is `DE` resolves to the non-empty key
` | DE`, refuting the claim that such a row resolves to the empty key. -/
theorem resolve_key_empty_name_counterexample :
    with_company_key ⟨some "", some "", some "", some "DE"⟩ = " | DE" ∧
    with_company_key ⟨some "", some "", some "", some "DE"⟩ ≠ "" := by
  constructor
  · rfl
  · decide

/-- C2 (amended): key resolution is deterministic, row-local and total;
a non-empty cleaned `firm_id` wins, then a non-empty cleaned `isin`;
otherwise the key is the cleaned name when the cleaned `hq_code` is
blank, and otherwise the name, a ` | ` separator, and the `hq_code`
(hence non-empty whenever `hq_code` is non-empty, even for an empty
name); a row whose four cleaned fields are all empty resolves to the
empty key; and two rows with the same non-empty cleaned `firm_id`
resolve to the same key regardless of every other field. -/
theorem resolve_key_priority_chain (r : KRow) :
    (cleanField r.firm_id ≠ "" → with_company_key r = cleanField r.firm_id) ∧
    (cleanField r.firm_id = "" → cleanField r.isin ≠ "" →
      with_company_key r = cleanField r.isin) ∧
    (cleanField r.firm_id = "" → cleanField r.isin = "" →
      cleanField r.hq_code = "" → with_company_key r = cleanField r.name) ∧
    (cleanField r.firm_id = "" → cleanField r.isin = "" →
      cleanField r.hq_code ≠ "" →
      with_company_key r = cleanField r.name ++ " | " ++ cleanField r.hq_code) ∧
    (cleanField r.firm_id = "" → cleanField r.isin = "" →
      cleanField r.name = "" → cleanField r.hq_code = "" →
      with_company_key r = "") ∧
    (∀ r₂ : KRow, cleanField r.firm_id ≠ "" →
      cleanField r.firm_id = cleanField r₂.firm_id →
      with_company_key r = with_company_key r₂) := by
  refine ⟨?_, ?_, ?_, ?_, ?_, ?_⟩
  · intro h; simp only [with_company_key, if_pos h]
  · intro h0 h1; simp [with_company_key, h0, h1]
  · intro h0 h1 h2; simp [with_company_key, h0, h1, h2]
  · intro h0 h1 h2; simp [with_company_key, h0, h1, h2]
  · intro h0 h1 h2 h3; simp [with_company_key, h0, h1, h2, h3]
  · intro r₂ hne heq
    simp only [with_company_key, if_pos hne, heq, if_pos (heq ▸ hne)]

/-- Witness for `resolve_key_priority_chain` at a row with a concrete
non-empty `firm_id`. -/
theorem resolve_key_priority_chain_witness :
    with_company_key ⟨some "X1", some "I1", some "Acme", some "DE"⟩ = "X1" := by
  have h := (resolve_key_priority_chain ⟨some "X1", some "I1", some "Acme", some "DE"⟩).1
  have : cleanField (some "X1") ≠ "" := by decide
  exact (h this).trans (by decide)

/-! ### C9: the quarter-label backbone (source: `_time_series_labels`) -/

/-- A panel row's parsed formation date; only the calendar year and
month matter for quarter labelling. -/
structure PRow where
  year : Nat
  month : Nat

/-- The derived (q_year, q_num, q_label) columns of one row (source
lines 51-63 of the loader). -/
def qTriple (r : PRow) : Nat × Nat × String :=
  (q_year r.year r.month, q_num r.month, q_label r.year r.month)

/-- Models `_time_series_labels` (source lines 1045-1052): take the distinct
(q_year, q_num, q_label) triples (`drop_duplicates`, keeping the first
occurrence) and sort them by (q_year, q_num). -/
def time_series_order (rows : List PRow) : List (Nat × Nat × String) :=
  sSort (fun a b => lex2Le (a.1, a.2.1) (b.1, b.2.1))
    (dropDups (rows.map qTriple))

/-- The label strings driving every time series. -/
def time_series_labels (rows : List PRow) : List String :=
  (time_series_order rows).map (fun t => t.2.2)

theorem q_num_lt_ten : ∀ m, m ≤ 12 → q_num m < 10 := by decide

/-- C9: for every panel, the quarter-label sequence driving the time
series is duplicate-free and sorted strictly chronologically, by fiscal
year first and then by fiscal quarter. -/
theorem time_series_labels_sorted_nodup (rows : List PRow)
    (hm : ∀ r ∈ rows, 1 ≤ r.month ∧ r.month ≤ 12) :
    (time_series_order rows).Pairwise
      (fun a b => a.1 < b.1 ∨ (a.1 = b.1 ∧ a.2.1 < b.2.1)) ∧
    (time_series_labels rows).Nodup := by
  have hall : ∀ t ∈ time_series_order rows, t.2.2 = mkLabel t.1 t.2.1 ∧ t.2.1 < 10 := by
    intro t ht
    have h1 : t ∈ dropDups (rows.map qTriple) :=
      (sSort_perm _ _).subset ht
    have h2 : t ∈ rows.map qTriple := mem_dropDups.mp h1
    obtain ⟨r, hr, rfl⟩ := List.mem_map.mp h2
    exact ⟨rfl, q_num_lt_ten _ (hm r hr).2⟩
  have hnd : (time_series_order rows).Nodup :=
    ((sSort_perm _ _).nodup_iff).mpr (nodup_dropDups _)
  have htrans : ∀ a b c : Nat × Nat × String,
      lex2Le (a.1, a.2.1) (b.1, b.2.1) = true →
      lex2Le (b.1, b.2.1) (c.1, c.2.1) = true →
      lex2Le (a.1, a.2.1) (c.1, c.2.1) = true :=
    fun _ _ _ hab hbc => lex2Le_trans _ _ _ hab hbc
  have htotal : ∀ a b : Nat × Nat × String,
      (lex2Le (a.1, a.2.1) (b.1, b.2.1) || lex2Le (b.1, b.2.1) (a.1, a.2.1)) = true :=
    fun _ _ => lex2Le_total _ _
  have hsorted : (time_series_order rows).Pairwise
      (fun a b => lex2Le (a.1, a.2.1) (b.1, b.2.1) = true) :=
    sSort_pairwise htrans htotal (dropDups (rows.map qTriple))
  constructor
  · refine List.Pairwise.imp_of_mem ?_ (hsorted.and hnd)
    intro a b ha hb hab
    obtain ⟨hle, hneq⟩ := hab
    simp only [lex2Le, Bool.or_eq_true, Bool.and_eq_true, decide_eq_true_eq] at hle
    rcases hle with h | ⟨h1, h2⟩
    · exact Or.inl h
    · rcases lt_or_eq_of_le h2 with h2' | h2'
      · exact Or.inr ⟨h1, h2'⟩
      · exfalso
        obtain ⟨hla, hqa⟩ := hall a ha
        obtain ⟨hlb, hqb⟩ := hall b hb
        exact hneq (Prod.ext h1 (Prod.ext h2' (by rw [hla, hlb, h1, h2'])))
  · refine List.Nodup.map_on ?_ hnd
    intro x hx y hy hxy
    obtain ⟨hlx, hqx⟩ := hall x hx
    obtain ⟨hly, hqy⟩ := hall y hy
    rw [hlx, hly] at hxy
    obtain ⟨h1, h2⟩ := mkLabel_inj _ _ _ _ hqx hqy hxy
    exact Prod.ext h1 (Prod.ext h2 (by rw [hlx, hly, h1, h2]))

/-- Witness for `time_series_labels_sorted_nodup` on a concrete panel:
rows dated 1999-03 and 1998-12, in reverse chronological order and with
a duplicate. -/
theorem time_series_labels_sorted_nodup_witness :
    (time_series_order [⟨1999, 3⟩, ⟨1998, 12⟩, ⟨1999, 3⟩]).Pairwise
      (fun a b => a.1 < b.1 ∨ (a.1 = b.1 ∧ a.2.1 < b.2.1)) ∧
    (time_series_labels [⟨1999, 3⟩, ⟨1998, 12⟩, ⟨1999, 3⟩]).Nodup :=
  time_series_labels_sorted_nodup [⟨1999, 3⟩, ⟨1998, 12⟩, ⟨1999, 3⟩] (by decide)

/-! ### Turnover and tenure tracker
(sources: `plot_joiner_leaver_time` lines 1903-1917 and
`plot_leaver_tenure_time` lines 1979-2001) -/

/-- One transition of the joiner/leaver loop.  With a falsy (empty)
previous active set both counts are reported as zero; otherwise they
are the cardinalities of the two set differences. -/
def jlStep (prev cur : Finset String) : Nat × Nat :=
  if prev = ∅ then (0, 0) else ((cur \ prev).card, (prev \ cur).card)

/-- The per-quarter (joiners, leavers) records: the loop carries the
previous quarter's active entity set, starting from the empty set. -/
def joiner_leaver_series (sets : List (Finset String)) : List (Nat × Nat) :=
  List.zipWith jlStep (∅ :: sets) sets

theorem joiner_leaver_series_length (sets : List (Finset String)) :
    (joiner_leaver_series sets).length = sets.length := by
  simp only [joiner_leaver_series, List.length_zipWith, List.length_cons]
  omega

/-- State of the tenure loop: the previous active set and the running
streak per entity (zero for entities with no streak record, matching
`prev_streak.get(k, 0)`). -/
structure TenState where
  prevSet : Finset String
  streak : String → Nat

def initTenState : TenState := ⟨∅, fun _ => 0⟩

/-- The record emitted for one quarter: average tenure over the leavers
that carry a positive streak record (0 when there are none), and the
leaver count.  The `idx == 0` special case of the source coincides with
this formula at the empty initial state. -/
def tenureEmit (st : TenState) (cur : Finset String) : ℚ × Nat :=
  (if (st.prevSet \ cur).filter (fun k => 0 < st.streak k) = ∅ then (0 : ℚ)
   else (Finset.sum ((st.prevSet \ cur).filter (fun k => 0 < st.streak k))
          fun k => (st.streak k : ℚ)) /
        ((st.prevSet \ cur).filter (fun k => 0 < st.streak k)).card,
   (st.prevSet \ cur).card)

/-- Streak update after one quarter: members continuing from the
previous quarter increment their streak, re-entrants restart at 1,
everyone else is dropped from the record. -/
def tenureNext (st : TenState) (cur : Finset String) : TenState :=
  ⟨cur, fun k => if k ∈ cur then (if k ∈ st.prevSet then st.streak k + 1 else 1) else 0⟩

def tenure_series : TenState → List (Finset String) → List (ℚ × Nat)
  | _, [] => []
  | st, cur :: rest => tenureEmit st cur :: tenure_series (tenureNext st cur) rest

/-- Per-quarter (avg tenure, leaver count) records of
`plot_leaver_tenure_time`. -/
def leaver_tenure_records (sets : List (Finset String)) : List (ℚ × Nat) :=
  tenure_series initTenState sets

/-- Every entity of the tracked active set has a positive streak. -/
def StreakPos (st : TenState) : Prop :=
  ∀ k ∈ st.prevSet, 0 < st.streak k

theorem streakPos_init : StreakPos initTenState := by
  intro k hk
  simp [initTenState] at hk

theorem streakPos_next (st : TenState) (cur : Finset String) :
    StreakPos (tenureNext st cur) := by
  intro k hk
  simp only [tenureNext] at hk ⊢
  rw [if_pos hk]
  by_cases h : k ∈ st.prevSet <;> simp [h]

/-- The tenure state after processing the first `i` quarters. -/
def tenStateAt (sets : List (Finset String)) (i : Nat) : TenState :=
  (sets.take i).foldl tenureNext initTenState

theorem streakPos_foldl (l : List (Finset String)) :
    ∀ st : TenState, StreakPos st → StreakPos (l.foldl tenureNext st) := by
  induction l with
  | nil => intro st h; exact h
  | cons c l ih =>
    intro st _
    exact ih (tenureNext st c) (streakPos_next st c)

theorem streakPos_tenStateAt (sets : List (Finset String)) (i : Nat) :
    StreakPos (tenStateAt sets i) :=
  streakPos_foldl _ initTenState streakPos_init

theorem tenure_series_getElem :
    ∀ (sets : List (Finset String)) (st : TenState) (i : Nat) (h : i < sets.length),
      (tenure_series st sets)[i]? =
        some (tenureEmit ((sets.take i).foldl tenureNext st) (sets[i])) := by
  intro sets
  induction sets with
  | nil => intro st i h; simp at h
  | cons c rest ih =>
    intro st i h
    cases i with
    | zero => simp [tenure_series]
    | succ i =>
      have hi : i < rest.length := by simpa using h
      simp only [tenure_series, List.getElem?_cons_succ, List.take_succ_cons,
        List.foldl_cons, List.getElem_cons_succ]
      exact ih (tenureNext st c) i hi

/-! ### C10: empty prior quarters silence the turnover report -/

/-- C10: in the joiners/leavers computation, any quarter whose
immediately preceding quarter has an empty active set reports zero
joiners and zero leavers, even mid-series and even when the current
quarter is non-empty. -/
theorem joiner_leaver_empty_prior (sets : List (Finset String)) (i : Nat)
    (hprev : sets[i]? = some ∅) (hnext : i + 1 < sets.length) :
    (joiner_leaver_series sets)[i + 1]? = some (0, 0) := by
  obtain ⟨hlt, hempty⟩ := List.getElem?_eq_some.mp hprev
  have hlen : i + 1 < (joiner_leaver_series sets).length := by
    rw [joiner_leaver_series_length]; exact hnext
  have hcons : i + 1 < (∅ :: sets : List (Finset String)).length := by
    simp only [List.length_cons]; omega
  rw [List.getElem?_eq_getElem hlen]
  congr 1
  have hz : (joiner_leaver_series sets)[i + 1] =
      jlStep ((∅ :: sets)[i + 1]) (sets[i + 1]) := by
    simp only [joiner_leaver_series]
    rw [List.getElem_zipWith]
  rw [hz]
  have hc : (∅ :: sets : List (Finset String))[i + 1] = sets[i] :=
    List.getElem_cons_succ ..
  rw [hc, hempty]
  simp [jlStep]

/-- Witness for `joiner_leaver_empty_prior` on a panel whose middle
quarter is empty but whose final quarter is not. -/
theorem joiner_leaver_empty_prior_witness :
    (joiner_leaver_series [{"A"}, ∅, {"B"}])[2]? = some (0, 0) :=
  joiner_leaver_empty_prior [{"A"}, ∅, {"B"}] 1 (by decide) (by decide)

/-! ### C3: the worked turnover/tenure example and the mean rule -/

/-- C3: on the panel Q1 = A,B; Q2 = B,C; Q3 = C, the turnover report is
(0,0), (1,1), (0,1); the joiner/leaver sets of the two transitions are
C/A and none/B; B's streak on entering Q3 is 2, which is also that
quarter's reported average leaver tenure; and in general every emitted
record is the arithmetic mean of tenure-at-departure over that
quarter's leavers (0 when there are none) together with the leaver
count. -/
theorem turnover_tenure_example_and_mean :
    joiner_leaver_series [{"A", "B"}, {"B", "C"}, {"C"}] = [(0, 0), (1, 1), (0, 1)] ∧
    (({"B", "C"} : Finset String) \ {"A", "B"} = {"C"} ∧
      ({"A", "B"} : Finset String) \ {"B", "C"} = {"A"}) ∧
    (({"C"} : Finset String) \ {"B", "C"} = ∅ ∧
      ({"B", "C"} : Finset String) \ {"C"} = {"B"}) ∧
    leaver_tenure_records [{"A", "B"}, {"B", "C"}, {"C"}] = [(0, 0), (1, 1), (2, 1)] ∧
    (tenStateAt [{"A", "B"}, {"B", "C"}, {"C"}] 2).streak "B" = 2 ∧
    ∀ (sets : List (Finset String)) (i : Nat) (h : i < sets.length),
      (leaver_tenure_records sets)[i]? =
        some (if (tenStateAt sets i).prevSet \ sets[i] = ∅ then (0 : ℚ)
              else (Finset.sum ((tenStateAt sets i).prevSet \ sets[i])
                      fun k => ((tenStateAt sets i).streak k : ℚ)) /
                   ((tenStateAt sets i).prevSet \ sets[i]).card,
              ((tenStateAt sets i).prevSet \ sets[i]).card) := by
  refine ⟨by decide, ⟨by decide, by decide⟩, ⟨by decide, by decide⟩,
    by with_unfolding_all decide, by decide, ?_⟩
  intro sets i h
  rw [leaver_tenure_records, tenure_series_getElem sets initTenState i h]
  have hpos := streakPos_tenStateAt sets i
  have hfilter : ((tenStateAt sets i).prevSet \ sets[i]).filter
      (fun k => 0 < (tenStateAt sets i).streak k) =
      (tenStateAt sets i).prevSet \ sets[i] := by
    apply Finset.filter_true_of_mem
    intro k hk
    exact hpos k (Finset.mem_sdiff.mp hk).1
  have hst : (sets.take i).foldl tenureNext initTenState = tenStateAt sets i := rfl
  rw [hst]
  congr 1
  rw [tenureEmit, hfilter]

/-- Witness for the universally quantified mean rule in
`turnover_tenure_example_and_mean`, instantiated at the example panel's
third quarter. -/
theorem turnover_tenure_mean_witness :
    (leaver_tenure_records [{"A", "B"}, {"B", "C"}, {"C"}])[2]? =
      some (if (tenStateAt [{"A", "B"}, {"B", "C"}, {"C"}] 2).prevSet \
              ([{"A", "B"}, {"B", "C"}, {"C"}] : List (Finset String))[2] = ∅ then (0 : ℚ)
            else (Finset.sum ((tenStateAt [{"A", "B"}, {"B", "C"}, {"C"}] 2).prevSet \
                    ([{"A", "B"}, {"B", "C"}, {"C"}] : List (Finset String))[2])
                    fun k => ((tenStateAt [{"A", "B"}, {"B", "C"}, {"C"}] 2).streak k : ℚ)) /
                 ((tenStateAt [{"A", "B"}, {"B", "C"}, {"C"}] 2).prevSet \
                    ([{"A", "B"}, {"B", "C"}, {"C"}] : List (Finset String))[2]).card,
            ((tenStateAt [{"A", "B"}, {"B", "C"}, {"C"}] 2).prevSet \
               ([{"A", "B"}, {"B", "C"}, {"C"}] : List (Finset String))[2]).card) :=
  turnover_tenure_example_and_mean.2.2.2.2.2
    [{"A", "B"}, {"B", "C"}, {"C"}] 2 (by decide)

/-! ### C4: category distributions
(source: `_distribution_counts`, lines 682-716)

String sort keys are taken through `String.data`, whose `List Char`
order coincides with the `String` order (`String.lt_iff`) and models
Python's code-point comparison. -/

/-- A keyed snapshot row for distribution purposes: the resolved
company key and the raw categorical cell (`None` models NaN). -/
structure DRow where
  key : String
  cat : Option String

/-- Cleaning of the categorical cell (source lines 699-700): missing
becomes the literal label, the value is stripped, and a blank result
also becomes the label. -/
def cleanCat (missing : String) (c : Option String) : String :=
  if trimStr (c.getD missing) = "" then missing else trimStr (c.getD missing)

/-- Rows with cleaned, non-blank company keys (source lines 694-695). -/
def dcRows (rows : List DRow) : List DRow :=
  (rows.map (fun r => DRow.mk (trimStr r.key) r.cat)).filter (fun r => r.key ≠ "")

/-- The distinct cleaned categories in ascending order (pandas
`groupby` sorts its keys). -/
def dcCats (rows : List DRow) : List String :=
  sSort (keyLe (fun s => s.data))
    (dropDups ((dcRows rows).map (fun r => cleanCat "(Missing)" r.cat)))

/-- Distinct company keys in one category bucket (`nunique`). -/
def dcCount (rows : List DRow) (c : String) : Nat :=
  (dropDups (((dcRows rows).filter (fun r => cleanCat "(Missing)" r.cat = c)).map
    (fun r => r.key))).length

/-- The denominator used for shares: the sum of the bucket counts. -/
def dcTotal (rows : List DRow) : Nat :=
  ((dcCats rows).map (dcCount rows)).sum

/-- Models `_distribution_counts`: empty when no keyed rows remain, otherwise
one (category, n_companies, share_pct) row per bucket, sorted
descending by count via `nargsort`'s doubly reversed stable ascending
sort (`sortDesc`), which keeps equal-count buckets in their original
ascending-category order. -/
def distribution_counts (rows : List DRow) : List (String × Nat × ℚ) :=
  if dcTotal rows = 0 then []
  else sortDesc (fun t : String × Nat × ℚ => t.2.1)
        ((dcCats rows).map
          (fun c => (c, dcCount rows c,
            ((dcCount rows c : ℚ) / (dcTotal rows : ℚ)) * 100)))

theorem dcCats_strict (rows : List DRow) :
    (dcCats rows).Pairwise (fun a b => a < b) := by
  have hsort := sSort_pairwise (keyLe_trans (fun s : String => s.data))
    (keyLe_total (fun s : String => s.data))
    (dropDups ((dcRows rows).map (fun r => cleanCat "(Missing)" r.cat)))
  have hnd : (dcCats rows).Nodup :=
    ((sSort_perm _ _).nodup_iff).mpr (nodup_dropDups _)
  refine List.Pairwise.imp_of_mem ?_ (hsort.and hnd)
  intro a b _ _ hab
  obtain ⟨hle, hne⟩ := hab
  have hled : a.data ≤ b.data := by simpa [keyLe, decide_eq_true_eq] using hle
  have hnd' : a.data ≠ b.data := fun heq => hne (String.ext heq)
  exact String.lt_iff_toList_lt.mpr (lt_of_le_of_ne hled hnd')

/-- C4 counterexample: on a quarter with entities E1 (category A),
E2 (category B) and E3 (one row in A and one in B), each bucket's share
is 50 — computed against the bucket-count sum 4, not against the 3
distinct entities of the quarter as the claim asserts (100·2/3 ≠ 50).
The tie between the equal counts stays in ascending category order. -/
theorem distribution_counts_counterexample :
    distribution_counts
        [⟨"E1", some "A"⟩, ⟨"E2", some "B"⟩, ⟨"E3", some "A"⟩, ⟨"E3", some "B"⟩] =
      [("A", 2, 50), ("B", 2, 50)] ∧
    (dropDups ((dcRows
        [⟨"E1", some "A"⟩, ⟨"E2", some "B"⟩, ⟨"E3", some "A"⟩, ⟨"E3", some "B"⟩]).map
        (fun r => r.key))).length = 3 ∧
    ¬ ((100 : ℚ) * 2 / 3 = 50) :=
  ⟨by with_unfolding_all decide, by decide, by with_unfolding_all decide⟩

/-- C4 (amended): for every snapshot with at least one keyed row, the
distribution has one bucket per distinct cleaned category (missing and
blank cells bucketed under `(Missing)`), each bucket counts distinct
entity keys (duplicate rows of an entity count once), each share is
100 · n / total where total is the sum of the bucket counts, and the
buckets are sorted descending by count with ties broken by category
label ascending. -/
theorem distribution_counts_spec (rows : List DRow) (h : dcTotal rows ≠ 0) :
    (∀ b ∈ distribution_counts rows,
        b.2.1 = dcCount rows b.1 ∧
        b.2.2 = ((dcCount rows b.1 : ℚ) / (dcTotal rows : ℚ)) * 100 ∧
        b.1 ∈ dcCats rows) ∧
    ((distribution_counts rows).map (fun b => b.2.1)).sum = dcTotal rows ∧
    (distribution_counts rows).Pairwise
      (fun x y => y.2.1 < x.2.1 ∨ (x.2.1 = y.2.1 ∧ x.1 < y.1)) ∧
    (∀ c ∈ dcCats rows,
        (c, dcCount rows c, ((dcCount rows c : ℚ) / (dcTotal rows : ℚ)) * 100) ∈
          distribution_counts rows) ∧
    cleanCat "(Missing)" none = "(Missing)" ∧
    (∀ s, trimStr s = "" → cleanCat "(Missing)" (some s) = "(Missing)") := by
  have hout : distribution_counts rows =
      sortDesc (fun t : String × Nat × ℚ => t.2.1)
        ((dcCats rows).map
          (fun c => (c, dcCount rows c,
            ((dcCount rows c : ℚ) / (dcTotal rows : ℚ)) * 100))) := by
    rw [distribution_counts, if_neg h]
  have hperm : (distribution_counts rows).Perm
      ((dcCats rows).map
        (fun c => (c, dcCount rows c,
          ((dcCount rows c : ℚ) / (dcTotal rows : ℚ)) * 100))) := by
    rw [hout]
    exact sortDesc_perm _ _
  refine ⟨?_, ?_, ?_, ?_, rfl, ?_⟩
  · intro b hb
    have hbL := hperm.subset hb
    obtain ⟨c, hc, rfl⟩ := List.mem_map.mp hbL
    exact ⟨rfl, rfl, hc⟩
  · have hmaps := hperm.map (fun b : String × Nat × ℚ => b.2.1)
    rw [hmaps.sum_eq, List.map_map]
    rfl
  · rw [hout]
    have hmapstrict : ((dcCats rows).map
        (fun c => (c, dcCount rows c,
          ((dcCount rows c : ℚ) / (dcTotal rows : ℚ)) * 100))).Pairwise
        (fun x y => (x.1.data : List Char) < y.1.data) := by
      rw [List.pairwise_map]
      exact (dcCats_strict rows).imp (fun hab => String.lt_iff_toList_lt.mp hab)
    have hlex := sortDesc_pairwise_lex (fun t : String × Nat × ℚ => t.2.1)
      (fun t : String × Nat × ℚ => t.1.data) _ hmapstrict
    refine hlex.imp ?_
    intro a b hab
    rcases hab with h1 | ⟨h1, h2⟩
    · exact Or.inl h1
    · exact Or.inr ⟨h1.symm, String.lt_iff_toList_lt.mpr h2⟩
  · intro c hc
    exact hperm.mem_iff.mpr (List.mem_map_of_mem _ hc)
  · intro s hs
    simp [cleanCat, hs]

/-- Witness for `distribution_counts_spec` at the four-row quarter of
the counterexample: the bucket counts add up to the modelled total. -/
theorem distribution_counts_spec_witness :
    ((distribution_counts
        [⟨"E1", some "A"⟩, ⟨"E2", some "B"⟩, ⟨"E3", some "A"⟩, ⟨"E3", some "B"⟩]).map
      (fun b => b.2.1)).sum =
      dcTotal [⟨"E1", some "A"⟩, ⟨"E2", some "B"⟩, ⟨"E3", some "A"⟩, ⟨"E3", some "B"⟩] :=
  (distribution_counts_spec
    [⟨"E1", some "A"⟩, ⟨"E2", some "B"⟩, ⟨"E3", some "A"⟩, ⟨"E3", some "B"⟩]
    (by decide)).2.1


/-! ### C6: top-5 category selection
(sources: `plot_top5_sectors` line 1611, `plot_top5_sectors_eqw` line
1752 and the country analogues) -/

/-- A panel row for the top-5 share plots: resolved company key,
category (sector or HQ country) and market cap. -/
structure SRow where
  key : String
  cat : String
  mcap : ℚ

/-- Rows kept by the equal-weighted plots: blank company keys dropped
(source lines 1743-1744). -/
def eqwRows (rows : List SRow) : List SRow :=
  rows.filter (fun r => trimStr r.key ≠ "")

/-- The distinct categories in ascending order (pandas `groupby`). -/
def catsOf (rows : List SRow) : List String :=
  sSort (keyLe (fun s : String => s.data)) (dropDups (rows.map (fun r => r.cat)))

/-- Raw row count of a category over the whole panel (`.size()`). -/
def rowCount (rows : List SRow) (c : String) : Nat :=
  (rows.filter (fun r => r.cat = c)).length

/-- Total market cap of a category over the whole panel. -/
def capSum (rows : List SRow) (c : String) : ℚ :=
  ((rows.filter (fun r => r.cat = c)).map (fun r => r.mcap)).sum

/-- Distinct company keys of a category (`.nunique()`). -/
def distinctCount (rows : List SRow) (c : String) : Nat :=
  (dropDups ((rows.filter (fun r => r.cat = c)).map (fun r => r.key))).length

/-- The five categories with the largest scores
(`series.sort_values(ascending=False).head(5).index.tolist()`), the
descending sort again modelled by `nargsort`'s doubly reversed stable
ascending sort. -/
def top5By {γ : Type} [LinearOrder γ] (score : String → γ) (cats : List String) :
    List String :=
  (sortDesc score cats).take 5

/-- The equal-weighted top-5 selection (source line 1752): ranked by
RAW ROW COUNT (`groupby(...).size()`) over the keyed rows. -/
def top5_eqw (rows : List SRow) : List String :=
  top5By (fun c => rowCount (eqwRows rows) c) (catsOf (eqwRows rows))

/-- The cap-weighted top-5 selection (source line 1611): ranked by
total market cap, with no key filtering. -/
def top5_cap (rows : List SRow) : List String :=
  top5By (fun c => capSum rows c) (catsOf rows)

/-- The equal-weighted selection rule as the spec words it: ranked by
distinct-entity count.  Stated only to compare against the source's
actual ranking. -/
def top5_equal_claimed (rows : List SRow) : List String :=
  top5By (fun c => distinctCount (eqwRows rows) c) (catsOf (eqwRows rows))

/-- Every selected category's score is at least every unselected one's:
the content of "top five by this score". -/
theorem top5By_maj {γ : Type} [LinearOrder γ] (score : String → γ) (cats : List String) :
    ∀ x ∈ top5By score cats, ∀ y ∈ cats, y ∉ top5By score cats → score y ≤ score x := by
  intro x hx y hy hyn
  have hdesc : (sortDesc score cats).Pairwise (fun a b => score b ≤ score a) :=
    sortDesc_pairwise score cats
  have hys : y ∈ sortDesc score cats := (sortDesc_perm score cats).mem_iff.mpr hy
  have hyd : y ∈ (sortDesc score cats).drop 5 := by
    have hsplit : y ∈ (sortDesc score cats).take 5 ++ (sortDesc score cats).drop 5 := by
      rw [List.take_append_drop]; exact hys
    rcases List.mem_append.mp hsplit with h | h
    · exact absurd h hyn
    · exact h
  have hpw : ((sortDesc score cats).take 5 ++ (sortDesc score cats).drop 5).Pairwise
      (fun a b => score b ≤ score a) := by
    rw [List.take_append_drop]; exact hdesc
  obtain ⟨-, -, hcross⟩ := List.pairwise_append.mp hpw
  exact hcross x hx y hyd

/-- C6 counterexample: a panel on which the equal-weighted top-5
selection (raw row count) picks category A (one entity, three rows)
and drops B (two entities, one row each), while the distinct-entity
ranking the claim asserts picks B and drops A.  The four filler
categories F1..F4 beat both A and B under either score. -/
theorem top5_eqw_counterexample :
    "A" ∈ top5_eqw
        [⟨"F1a", "F1", 1⟩, ⟨"F1b", "F1", 1⟩, ⟨"F1c", "F1", 1⟩, ⟨"F1c", "F1", 1⟩,
         ⟨"F2a", "F2", 1⟩, ⟨"F2b", "F2", 1⟩, ⟨"F2c", "F2", 1⟩, ⟨"F2c", "F2", 1⟩,
         ⟨"F3a", "F3", 1⟩, ⟨"F3b", "F3", 1⟩, ⟨"F3c", "F3", 1⟩, ⟨"F3c", "F3", 1⟩,
         ⟨"F4a", "F4", 1⟩, ⟨"F4b", "F4", 1⟩, ⟨"F4c", "F4", 1⟩, ⟨"F4c", "F4", 1⟩,
         ⟨"Aa", "A", 1⟩, ⟨"Aa", "A", 1⟩, ⟨"Aa", "A", 1⟩,
         ⟨"Ba", "B", 1⟩, ⟨"Bb", "B", 1⟩] ∧
    "A" ∉ top5_equal_claimed
        [⟨"F1a", "F1", 1⟩, ⟨"F1b", "F1", 1⟩, ⟨"F1c", "F1", 1⟩, ⟨"F1c", "F1", 1⟩,
         ⟨"F2a", "F2", 1⟩, ⟨"F2b", "F2", 1⟩, ⟨"F2c", "F2", 1⟩, ⟨"F2c", "F2", 1⟩,
         ⟨"F3a", "F3", 1⟩, ⟨"F3b", "F3", 1⟩, ⟨"F3c", "F3", 1⟩, ⟨"F3c", "F3", 1⟩,
         ⟨"F4a", "F4", 1⟩, ⟨"F4b", "F4", 1⟩, ⟨"F4c", "F4", 1⟩, ⟨"F4c", "F4", 1⟩,
         ⟨"Aa", "A", 1⟩, ⟨"Aa", "A", 1⟩, ⟨"Aa", "A", 1⟩,
         ⟨"Ba", "B", 1⟩, ⟨"Bb", "B", 1⟩] ∧
    "B" ∉ top5_eqw
        [⟨"F1a", "F1", 1⟩, ⟨"F1b", "F1", 1⟩, ⟨"F1c", "F1", 1⟩, ⟨"F1c", "F1", 1⟩,
         ⟨"F2a", "F2", 1⟩, ⟨"F2b", "F2", 1⟩, ⟨"F2c", "F2", 1⟩, ⟨"F2c", "F2", 1⟩,
         ⟨"F3a", "F3", 1⟩, ⟨"F3b", "F3", 1⟩, ⟨"F3c", "F3", 1⟩, ⟨"F3c", "F3", 1⟩,
         ⟨"F4a", "F4", 1⟩, ⟨"F4b", "F4", 1⟩, ⟨"F4c", "F4", 1⟩, ⟨"F4c", "F4", 1⟩,
         ⟨"Aa", "A", 1⟩, ⟨"Aa", "A", 1⟩, ⟨"Aa", "A", 1⟩,
         ⟨"Ba", "B", 1⟩, ⟨"Bb", "B", 1⟩] ∧
    "B" ∈ top5_equal_claimed
        [⟨"F1a", "F1", 1⟩, ⟨"F1b", "F1", 1⟩, ⟨"F1c", "F1", 1⟩, ⟨"F1c", "F1", 1⟩,
         ⟨"F2a", "F2", 1⟩, ⟨"F2b", "F2", 1⟩, ⟨"F2c", "F2", 1⟩, ⟨"F2c", "F2", 1⟩,
         ⟨"F3a", "F3", 1⟩, ⟨"F3b", "F3", 1⟩, ⟨"F3c", "F3", 1⟩, ⟨"F3c", "F3", 1⟩,
         ⟨"F4a", "F4", 1⟩, ⟨"F4b", "F4", 1⟩, ⟨"F4c", "F4", 1⟩, ⟨"F4c", "F4", 1⟩,
         ⟨"Aa", "A", 1⟩, ⟨"Aa", "A", 1⟩, ⟨"Aa", "A", 1⟩,
         ⟨"Ba", "B", 1⟩, ⟨"Bb", "B", 1⟩] := by
  refine ⟨?_, ?_, ?_, ?_⟩ <;> with_unfolding_all decide

/-- The cap-weighted versus equal-weighted comparison panel: categories
C1..C5 have two rows each with decreasing total caps 10..6, C6 has one
row with cap 100. -/
def capVsEqwPanel : List SRow :=
  [⟨"C1a", "C1", 5⟩, ⟨"C1b", "C1", 5⟩,
   ⟨"C2a", "C2", 5⟩, ⟨"C2b", "C2", 4⟩,
   ⟨"C3a", "C3", 4⟩, ⟨"C3b", "C3", 4⟩,
   ⟨"C4a", "C4", 4⟩, ⟨"C4b", "C4", 3⟩,
   ⟨"C5a", "C5", 3⟩, ⟨"C5b", "C5", 3⟩,
   ⟨"C6a", "C6", 100⟩]

/-- C6 (amended): the equal-weighted top-5 selection ranks on raw row
count over the keyed rows and the cap-weighted selection ranks on total
market cap; the two selections are computed independently, each from
its own score, and can differ in membership, as on the concrete panel
where C6 is cap-selected but not count-selected and C5 the reverse. -/
theorem top5_selection_criteria :
    (∀ rows : List SRow, ∀ x ∈ top5_eqw rows, ∀ y ∈ catsOf (eqwRows rows),
        y ∉ top5_eqw rows →
        rowCount (eqwRows rows) y ≤ rowCount (eqwRows rows) x) ∧
    (∀ rows : List SRow, ∀ x ∈ top5_cap rows, ∀ y ∈ catsOf rows,
        y ∉ top5_cap rows → capSum rows y ≤ capSum rows x) ∧
    ("C6" ∈ top5_cap capVsEqwPanel ∧ "C6" ∉ top5_eqw capVsEqwPanel ∧
     "C5" ∈ top5_eqw capVsEqwPanel ∧ "C5" ∉ top5_cap capVsEqwPanel) := by
  refine ⟨?_, ?_, ?_, ?_, ?_, ?_⟩
  · intro rows
    exact top5By_maj (fun c => rowCount (eqwRows rows) c) (catsOf (eqwRows rows))
  · intro rows
    exact top5By_maj (fun c => capSum rows c) (catsOf rows)
  all_goals with_unfolding_all decide

/-- Witness for `top5_selection_criteria`: on the comparison panel the
unselected category C6 has at most the row count of the selected C1. -/
theorem top5_selection_criteria_witness :
    rowCount (eqwRows capVsEqwPanel) "C6" ≤ rowCount (eqwRows capVsEqwPanel) "C1" :=
  top5_selection_criteria.1 capVsEqwPanel "C1" (by with_unfolding_all decide)
    "C6" (by with_unfolding_all decide) (by with_unfolding_all decide)


/-! ### C5: concentration metrics
(sources: `plot_concentration_topn_time` lines 2068-2084 and
`plot_concentration_hhi_time` lines 2152-2162) -/

/-- The per-entity cap used by the concentration plots: the maximum
`mcap_eur` over an entity's rows in the quarter
(`groupby([label, "_company_key"]).max()`), 0 as a vacuous default for
keys that do not occur. -/
def max_cap (rows : List (String × ℚ)) (k : String) : ℚ :=
  (((rows.filter (fun r => r.1 = k)).map (fun r => r.2)).max?).getD 0

/-- One deduplicated cap per distinct entity key of the quarter, keys
in ascending order. -/
def entity_caps (rows : List (String × ℚ)) : List ℚ :=
  (sSort (keyLe (fun s : String => s.data)) (dropDups (rows.map (fun r => r.1)))).map
    (max_cap rows)

/-- Top-N concentration share of a quarter's per-entity caps (source
lines 2075-2082): sort descending, sum the first N, divide by the
total, scale to percent; 0 for an empty series or a non-positive
total.  Tie order among equal caps cannot affect a head-N sum or the
total, so the reversed ascending sort used here is extensionally equal
to the doubly reversed `sortDesc`. -/
def concentration_topn (caps : List ℚ) (n : Nat) : ℚ :=
  if (sSort (keyLe (id : ℚ → ℚ)) caps).reverse = [] then 0
  else if 0 < ((sSort (keyLe (id : ℚ → ℚ)) caps).reverse).sum then
    ((((sSort (keyLe (id : ℚ → ℚ)) caps).reverse).take n).sum /
      ((sSort (keyLe (id : ℚ → ℚ)) caps).reverse).sum) * 100
  else 0

/-- HHI in points (source lines 2155-2161): 10000 times the sum of
squared weights, each weight a cap divided by the quarter total; 0 for
a non-positive total. -/
def concentration_hhi (caps : List ℚ) : ℚ :=
  if 0 < caps.sum then ((caps.map (fun c => (c / caps.sum) ^ 2)).sum) * 10000 else 0

theorem list_sum_div (l : List ℚ) (t : ℚ) :
    (l.map (fun c => c / t)).sum = l.sum / t := by
  induction l with
  | nil => simp
  | cons a l ih => simp [ih, add_div]

theorem sSort_reverse_sum (caps : List ℚ) :
    ((sSort (keyLe (id : ℚ → ℚ)) caps).reverse).sum = caps.sum :=
  ((List.reverse_perm _).trans (sSort_perm _ _)).sum_eq

/-- C5: concentration metrics.  Top-N is the sum of the N largest
per-entity caps over the total (the descending head majorizes the
tail), each entity contributing its maximal cap; both metrics return 0
on a zero total; HHI is 10000·Σ weight² with weights normalised by the
total, never exceeds 10000 for non-negative caps, and equals exactly
10000/n for n entities with equal positive caps. -/
theorem concentration_metrics_spec :
    (∀ (caps : List ℚ) (n : Nat), caps.sum = 0 →
        concentration_topn caps n = 0 ∧ concentration_hhi caps = 0) ∧
    (∀ caps : List ℚ, (∀ c ∈ caps, 0 ≤ c) → concentration_hhi caps ≤ 10000) ∧
    (∀ (n : Nat) (c : ℚ), 0 < n → 0 < c →
        concentration_hhi (List.replicate n c) = 10000 / n) ∧
    (∀ (caps : List ℚ) (n : Nat), 0 < caps.sum →
        concentration_topn caps n =
          100 * (((sSort (keyLe (id : ℚ → ℚ)) caps).reverse).take n).sum / caps.sum ∧
        (∀ x ∈ ((sSort (keyLe (id : ℚ → ℚ)) caps).reverse).drop n,
         ∀ y ∈ ((sSort (keyLe (id : ℚ → ℚ)) caps).reverse).take n, x ≤ y)) ∧
    (∀ (rows : List (String × ℚ)) (p : String × ℚ), p ∈ rows → p.2 ≤ max_cap rows p.1) ∧
    (∀ (rows : List (String × ℚ)) (k : String), k ∈ rows.map (fun r => r.1) →
        max_cap rows k ∈ (rows.filter (fun r => r.1 = k)).map (fun r => r.2)) := by
  refine ⟨?_, ?_, ?_, ?_, ?_, ?_⟩
  · intro caps n hz
    constructor
    · rw [concentration_topn]
      by_cases he : (sSort (keyLe (id : ℚ → ℚ)) caps).reverse = []
      · rw [if_pos he]
      · rw [if_neg he, sSort_reverse_sum, hz]
        simp
    · rw [concentration_hhi, hz]
      simp
  · intro caps hnn
    rw [concentration_hhi]
    by_cases hpos : 0 < caps.sum
    · rw [if_pos hpos]
      have hone : (caps.map (fun c => c / caps.sum)).sum = 1 := by
        rw [list_sum_div, div_self (ne_of_gt hpos)]
      have hle : (caps.map (fun c => (c / caps.sum) ^ 2)).sum ≤
          (caps.map (fun c => c / caps.sum)).sum := by
        apply List.sum_le_sum
        intro c hc
        have h0 : 0 ≤ c / caps.sum := div_nonneg (hnn c hc) (le_of_lt hpos)
        have h1 : c / caps.sum ≤ 1 := by
          rw [div_le_one hpos]
          exact List.single_le_sum hnn c hc
        nlinarith
      calc (caps.map (fun c => (c / caps.sum) ^ 2)).sum * 10000
          ≤ 1 * 10000 := by
            apply mul_le_mul_of_nonneg_right _ (by norm_num)
            exact hle.trans (le_of_eq hone)
        _ = 10000 := by norm_num
    · rw [if_neg hpos]
      norm_num
  · intro n c hn hc
    have hnq : (0 : ℚ) < n := by exact_mod_cast hn
    have hsum : (List.replicate n c).sum = (n : ℚ) * c := by
      rw [List.sum_replicate, nsmul_eq_mul]
    rw [concentration_hhi, hsum, if_pos (by positivity)]
    rw [List.map_replicate, List.sum_replicate, nsmul_eq_mul]
    have hcn : (n : ℚ) * c ≠ 0 := by positivity
    field_simp
    ring
  · intro caps n hpos
    have hne : (sSort (keyLe (id : ℚ → ℚ)) caps).reverse ≠ [] := by
      intro he
      rw [← sSort_reverse_sum caps, he] at hpos
      simp at hpos
    constructor
    · rw [concentration_topn, if_neg hne, sSort_reverse_sum, if_pos hpos]
      ring
    · have hdesc : ((sSort (keyLe (id : ℚ → ℚ)) caps).reverse).Pairwise
          (fun a b => b ≤ a) := by
        rw [List.pairwise_reverse]
        refine (sSort_pairwise (keyLe_trans (id : ℚ → ℚ))
          (keyLe_total (id : ℚ → ℚ)) caps).imp ?_
        intro a b hab
        simpa [keyLe, decide_eq_true_eq] using hab
      have hpw : (((sSort (keyLe (id : ℚ → ℚ)) caps).reverse).take n ++
          ((sSort (keyLe (id : ℚ → ℚ)) caps).reverse).drop n).Pairwise
          (fun a b => b ≤ a) := by
        rw [List.take_append_drop]; exact hdesc
      obtain ⟨-, -, hcross⟩ := List.pairwise_append.mp hpw
      intro x hx y hy
      exact hcross y hy x hx
  · intro rows p hp
    have hmem : p.2 ∈ (rows.filter (fun r => r.1 = p.1)).map (fun r => r.2) := by
      apply List.mem_map_of_mem
      rw [List.mem_filter]
      exact ⟨hp, by simp⟩
    rcases hmax : ((rows.filter (fun r => r.1 = p.1)).map (fun r => r.2)).max? with _ | m
    · rw [List.max?_eq_none_iff] at hmax
      rw [hmax] at hmem
      simp at hmem
    · have hub := ((List.max?_le_iff (fun a b c => max_le_iff) hmax).mp (le_refl m)) p.2 hmem
      rw [max_cap, hmax]
      exact hub
  · intro rows k hk
    obtain ⟨p, hp, rfl⟩ := List.mem_map.mp hk
    have hne : (rows.filter (fun r => r.1 = p.1)).map (fun r => r.2) ≠ [] := by
      intro he
      have : p.2 ∈ (rows.filter (fun r => r.1 = p.1)).map (fun r => r.2) := by
        apply List.mem_map_of_mem
        rw [List.mem_filter]
        exact ⟨hp, by simp⟩
      rw [he] at this
      simp at this
    rcases hmax : ((rows.filter (fun r => r.1 = p.1)).map (fun r => r.2)).max? with _ | m
    · exact absurd (List.max?_eq_none_iff.mp hmax) hne
    · have hmem := List.max?_mem (fun a b => max_choice a b) hmax
      rw [max_cap, hmax]
      exact hmem

/-- Witness for `concentration_metrics_spec`: four entities with equal
cap 5 give an HHI of exactly 10000/4 points. -/
theorem concentration_metrics_spec_witness :
    concentration_hhi (List.replicate 4 5) = 10000 / 4 :=
  concentration_metrics_spec.2.2.1 4 5 (by decide) (by decide)


/-! ### C7: per-company time series
(sources: `plot_company_mcap` lines 2246-2248 and `plot_company_rank`
lines 2336-2342) -/

/-- One row of the selected company: quarter label, market cap and
`rank_mcap` (`none` models NaN). -/
structure CRow where
  q_lab : String
  mcap : Option ℚ
  rank : Option ℚ
deriving DecidableEq

/-- The cap bar for one quarter (source lines 2246-2248): the maximum
cap over the company's rows of that quarter, with missing quarters
filled with 0.0 (`reindex(labels).fillna(0.0)`), scaled to billions. -/
def company_mcap_at (rows : List CRow) (l : String) : ℚ :=
  ((((rows.filter (fun r => r.q_lab = l)).filterMap (fun r => r.mcap)).max?).getD 0) /
    1000000000

/-- The rank point for one quarter (source lines 2336-2342): ranks
below 1 are treated as missing, the best (minimum) remaining rank is
kept, and quarters without any valid rank stay missing
(`reindex(labels)` keeps NaN). -/
def company_rank_at (rows : List CRow) (l : String) : Option ℚ :=
  (((rows.filter (fun r => r.q_lab = l)).filterMap (fun r => r.rank)).filter
    (fun x => decide (1 ≤ x))).min?

def company_mcap_series (labels : List String) (rows : List CRow) : List ℚ :=
  labels.map (company_mcap_at rows)

def company_rank_series (labels : List String) (rows : List CRow) : List (Option ℚ) :=
  labels.map (company_rank_at rows)

/-- C7 counterexample: entity X with caps 10, 12, 9 billion in quarters
2020Q1, 2020Q2, 2020Q4 and no 2020Q3 row.  The rank series does mark
2020Q3 absent, but the cap series reports the VALUE 0 there — the same
series produced when an explicit zero-cap 2020Q3 row exists — refuting
"both the rank query and the cap query return absent rather than
zero". -/
theorem company_series_counterexample :
    company_mcap_series ["2020Q1", "2020Q2", "2020Q3", "2020Q4"]
        [⟨"2020Q1", some 10000000000, some 3⟩, ⟨"2020Q2", some 12000000000, some 2⟩,
         ⟨"2020Q4", some 9000000000, some 5⟩] = [10, 12, 0, 9] ∧
    company_mcap_series ["2020Q1", "2020Q2", "2020Q3", "2020Q4"]
        [⟨"2020Q1", some 10000000000, some 3⟩, ⟨"2020Q2", some 12000000000, some 2⟩,
         ⟨"2020Q4", some 9000000000, some 5⟩] =
      company_mcap_series ["2020Q1", "2020Q2", "2020Q3", "2020Q4"]
        [⟨"2020Q1", some 10000000000, some 3⟩, ⟨"2020Q2", some 12000000000, some 2⟩,
         ⟨"2020Q4", some 9000000000, some 5⟩, ⟨"2020Q3", some 0, none⟩] ∧
    company_rank_series ["2020Q1", "2020Q2", "2020Q3", "2020Q4"]
        [⟨"2020Q1", some 10000000000, some 3⟩, ⟨"2020Q2", some 12000000000, some 2⟩,
         ⟨"2020Q4", some 9000000000, some 5⟩] = [some 3, some 2, none, some 5] := by
  refine ⟨?_, ?_, ?_⟩ <;> with_unfolding_all decide

/-- C7 (amended): for a quarter in which the entity has no row, the
rank query returns the absent marker (`none`) while the cap query
returns the value 0 — the cap series zero-fills gaps instead of
marking them absent. -/
theorem company_series_gap_rule (rows : List CRow) (l : String)
    (habsent : rows.filter (fun r => r.q_lab = l) = []) :
    company_rank_at rows l = none ∧ company_mcap_at rows l = 0 := by
  constructor
  · rw [company_rank_at, habsent]
    rfl
  · rw [company_mcap_at, habsent]
    norm_num

/-- Witness for `company_series_gap_rule` at the counterexample's
missing quarter. -/
theorem company_series_gap_rule_witness :
    company_rank_at
        [⟨"2020Q1", some 10000000000, some 3⟩, ⟨"2020Q2", some 12000000000, some 2⟩,
         ⟨"2020Q4", some 9000000000, some 5⟩] "2020Q3" = none ∧
    company_mcap_at
        [⟨"2020Q1", some 10000000000, some 3⟩, ⟨"2020Q2", some 12000000000, some 2⟩,
         ⟨"2020Q4", some 9000000000, some 5⟩] "2020Q3" = 0 :=
  company_series_gap_rule
    [⟨"2020Q1", some 10000000000, some 3⟩, ⟨"2020Q2", some 12000000000, some 2⟩,
     ⟨"2020Q4", some 9000000000, some 5⟩] "2020Q3" (by decide)

/-! ### C8: entity search
(source: `_update_company_choices`, lines 1166-1226, over the
`_companies_master` records of lines 1139-1149) -/

/-- One master record per entity: stable key, display name, firm id and
ISIN. -/
structure Entity where
  key : String
  dname : String
  firm_id : String
  isin : String

/-- Python `str.upper` on the character list. -/
def upperStr (s : String) : String := ⟨s.data.map Char.toUpper⟩

/-- Models `_search_blob` (source lines 1140-1148): uppercased key, display
name, firm id and ISIN joined by spaces. -/
def search_blob (e : Entity) : String :=
  upperStr e.key ++ " " ++ upperStr e.dname ++ " " ++
    upperStr e.firm_id ++ " " ++ upperStr e.isin

/-- Substring containment, modelling `str.contains(..., regex=False)`. -/
def strContains (s pat : String) : Bool := decide (pat.data <:+: s.data)

/-- Models `str.startswith`. -/
def strStarts (s pat : String) : Bool := decide (pat.data <+: s.data)

/-- The exact-match predicate `m_exact` (source lines 1182-1187): some searchable field equals the
uppercased query. -/
def exact_match (q : String) (e : Entity) : Bool :=
  (upperStr e.key == q) || (upperStr e.firm_id == q) ||
    (upperStr e.isin == q) || (upperStr e.dname == q)

/-- The first-tier-or-better predicate `m_starts` (source lines 1188-1193): some searchable field starts
with the uppercased query. -/
def starts_match (q : String) (e : Entity) : Bool :=
  strStarts (upperStr e.key) q || strStarts (upperStr e.firm_id) q ||
    strStarts (upperStr e.isin) q || strStarts (upperStr e.dname) q

/-- The `_rank` score (source lines 1194-1197): exact·100 + starts·10 penalties,
yielding 0 / 100 / 110 for the three tiers. -/
def match_rank (q : String) (e : Entity) : Nat :=
  (if exact_match q e then 0 else 100) + (if starts_match q e then 0 else 10)

/-- Models `_update_company_choices`: a blank (stripped) query yields no
choices; otherwise the blob-substring matches are stably sorted by
(rank, uppercased display name, key) and truncated to 50.  String sort
keys go through `.data`; `upperStr` preserves blankness, so the guard
is checked on the uppercased stripped query. -/
def search_entities (master : List Entity) (qraw : String) : List Entity :=
  if upperStr (trimStr qraw) = "" then []
  else
    (sSort (fun a b =>
        lex3Le (match_rank (upperStr (trimStr qraw)) a, (upperStr a.dname).data, a.key.data)
               (match_rank (upperStr (trimStr qraw)) b, (upperStr b.dname).data, b.key.data))
      (master.filter (fun e => strContains (search_blob e) (upperStr (trimStr qraw))))).take 50

/-- C8: search returns at most 50 results, is case-insensitive (it
depends only on the uppercased stripped query), ranks its results in
the three tiers exact < prefix < substring with ties broken by display
name and then key, and on the X1 / X10 example returns the exact match
first. -/
theorem search_entities_spec (master : List Entity) (q₁ q₂ : String) :
    (search_entities master q₁).length ≤ 50 ∧
    (upperStr (trimStr q₁) = upperStr (trimStr q₂) →
      search_entities master q₁ = search_entities master q₂) ∧
    (search_entities master q₁).Pairwise (fun a b =>
      match_rank (upperStr (trimStr q₁)) a < match_rank (upperStr (trimStr q₁)) b ∨
      (match_rank (upperStr (trimStr q₁)) a = match_rank (upperStr (trimStr q₁)) b ∧
        ((upperStr a.dname).data < (upperStr b.dname).data ∨
         ((upperStr a.dname).data = (upperStr b.dname).data ∧ a.key.data ≤ b.key.data)))) ∧
    (∀ q e, exact_match q e = true → match_rank q e = 0) ∧
    (∀ q e, exact_match q e = false → starts_match q e = true → match_rank q e = 100) ∧
    (∀ q e, exact_match q e = false → starts_match q e = false → match_rank q e = 110) ∧
    (search_entities [⟨"X10", "Acme Two", "X10", ""⟩, ⟨"X1", "Acme", "X1", ""⟩]
        "X1").map (fun e => e.key) = ["X1", "X10"] := by
  have hrank0 : ∀ (q : String) (e : Entity), exact_match q e = true → match_rank q e = 0 := by
    intro q e hex
    have hst : starts_match q e = true := by
      simp only [exact_match, Bool.or_eq_true, beq_iff_eq] at hex
      simp only [starts_match, strStarts, Bool.or_eq_true, decide_eq_true_eq]
      rcases hex with ((h | h) | h) | h
      · refine Or.inl (Or.inl (Or.inl ?_))
        rw [h]
      · refine Or.inl (Or.inl (Or.inr ?_))
        rw [h]
      · refine Or.inl (Or.inr ?_)
        rw [h]
      · refine Or.inr ?_
        rw [h]
    simp [match_rank, hex, hst]
  refine ⟨?_, ?_, ?_, hrank0, ?_, ?_, ?_⟩
  · rw [search_entities]
    by_cases hq : upperStr (trimStr q₁) = ""
    · simp [hq]
    · rw [if_neg hq]
      have := List.length_take 50 (sSort (fun a b =>
        lex3Le (match_rank (upperStr (trimStr q₁)) a, (upperStr a.dname).data, a.key.data)
               (match_rank (upperStr (trimStr q₁)) b, (upperStr b.dname).data, b.key.data))
        (master.filter (fun e => strContains (search_blob e) (upperStr (trimStr q₁)))))
      omega
  · intro h
    rw [search_entities, search_entities, h]
  · rw [search_entities]
    by_cases hq : upperStr (trimStr q₁) = ""
    · simp [hq]
    · rw [if_neg hq]
      have htrans : ∀ a b c : Entity,
          (fun a b => lex3Le
            (match_rank (upperStr (trimStr q₁)) a, (upperStr a.dname).data, a.key.data)
            (match_rank (upperStr (trimStr q₁)) b, (upperStr b.dname).data, b.key.data)) a b = true →
          (fun a b => lex3Le
            (match_rank (upperStr (trimStr q₁)) a, (upperStr a.dname).data, a.key.data)
            (match_rank (upperStr (trimStr q₁)) b, (upperStr b.dname).data, b.key.data)) b c = true →
          (fun a b => lex3Le
            (match_rank (upperStr (trimStr q₁)) a, (upperStr a.dname).data, a.key.data)
            (match_rank (upperStr (trimStr q₁)) b, (upperStr b.dname).data, b.key.data)) a c = true :=
        fun _ _ _ hab hbc => lex3Le_trans _ _ _ hab hbc
      have htotal : ∀ a b : Entity, ((fun a b => lex3Le
            (match_rank (upperStr (trimStr q₁)) a, (upperStr a.dname).data, a.key.data)
            (match_rank (upperStr (trimStr q₁)) b, (upperStr b.dname).data, b.key.data)) a b ||
          (fun a b => lex3Le
            (match_rank (upperStr (trimStr q₁)) a, (upperStr a.dname).data, a.key.data)
            (match_rank (upperStr (trimStr q₁)) b, (upperStr b.dname).data, b.key.data)) b a) = true :=
        fun _ _ => lex3Le_total _ _
      have hsorted := sSort_pairwise htrans htotal
        (master.filter (fun e => strContains (search_blob e) (upperStr (trimStr q₁))))
      have hpw := hsorted.sublist (List.take_sublist 50 _)
      refine hpw.imp ?_
      intro a b hab
      simpa only [lex3Le, lex2Le, Bool.or_eq_true, Bool.and_eq_true,
        decide_eq_true_eq] using hab
  · intro q e h1 h2
    simp [match_rank, h1, h2]
  · intro q e h1 h2
    simp [match_rank, h1, h2]
  · with_unfolding_all decide

/-- Witness for `search_entities_spec`: lower-case and upper-case
queries produce the same result list on the X1 / X10 master. -/
theorem search_entities_spec_witness :
    search_entities [⟨"X10", "Acme Two", "X10", ""⟩, ⟨"X1", "Acme", "X1", ""⟩] "x1" =
      search_entities [⟨"X10", "Acme Two", "X10", ""⟩, ⟨"X1", "Acme", "X1", ""⟩] "X1" :=
  (search_entities_spec [⟨"X10", "Acme Two", "X10", ""⟩, ⟨"X1", "Acme", "X1", ""⟩]
    "x1" "X1").2.1 (by with_unfolding_all decide)

end Euro500
